import Mathlib

/-!
Verification of the openMVG `Pinhole_Intrinsic` camera model
(`src/openMVG/cameras/Camera_Pinhole.hpp`).

The embedding models the C++ doubles as exact rationals for the matrix and
affine arithmetic, and as reals for the one operation that needs a square
root (unit normalization of the bearing vector).  Eigen's fixed-size 3x3
`inverse()` is modelled by the cofactor/determinant formula it uses; in the
embedding a singular matrix yields the zero matrix (rational division by
zero), mirroring the fact that the C++ result is garbage (non-finite) there.
-/

namespace OpenMVG

/-- 2D vector of (exact) doubles, as Eigen `Vec2`. -/
structure Vec2 where
  x : ℚ
  y : ℚ
deriving DecidableEq, Repr

/-- 3D vector of (exact) doubles, as Eigen `Vec3`. -/
structure Vec3 where
  x : ℚ
  y : ℚ
  z : ℚ
deriving DecidableEq, Repr

/-- 3x3 matrix of (exact) doubles, as Eigen `Mat3`, row major. -/
structure Mat3 where
  m00 : ℚ
  m01 : ℚ
  m02 : ℚ
  m10 : ℚ
  m11 : ℚ
  m12 : ℚ
  m20 : ℚ
  m21 : ℚ
  m22 : ℚ
deriving DecidableEq, Repr

/-- Matrix-matrix product of 3x3 matrices. -/
def Mat3.mul (a b : Mat3) : Mat3 :=
  ⟨ a.m00 * b.m00 + a.m01 * b.m10 + a.m02 * b.m20,
    a.m00 * b.m01 + a.m01 * b.m11 + a.m02 * b.m21,
    a.m00 * b.m02 + a.m01 * b.m12 + a.m02 * b.m22,
    a.m10 * b.m00 + a.m11 * b.m10 + a.m12 * b.m20,
    a.m10 * b.m01 + a.m11 * b.m11 + a.m12 * b.m21,
    a.m10 * b.m02 + a.m11 * b.m12 + a.m12 * b.m22,
    a.m20 * b.m00 + a.m21 * b.m10 + a.m22 * b.m20,
    a.m20 * b.m01 + a.m21 * b.m11 + a.m22 * b.m21,
    a.m20 * b.m02 + a.m21 * b.m12 + a.m22 * b.m22 ⟩

/-- Matrix-vector product of a 3x3 matrix with a 3-vector. -/
def Mat3.mulVec (a : Mat3) (v : Vec3) : Vec3 :=
  ⟨ a.m00 * v.x + a.m01 * v.y + a.m02 * v.z,
    a.m10 * v.x + a.m11 * v.y + a.m12 * v.z,
    a.m20 * v.x + a.m21 * v.y + a.m22 * v.z ⟩

/-- The 3x3 identity matrix. -/
def Mat3.id3 : Mat3 := ⟨1, 0, 0, 0, 1, 0, 0, 0, 1⟩

/-- Determinant of a 3x3 matrix (cofactor expansion along the first row),
as used by Eigen's fixed-size `inverse()`. -/
def Mat3.det (m : Mat3) : ℚ :=
  m.m00 * (m.m11 * m.m22 - m.m12 * m.m21)
  - m.m01 * (m.m10 * m.m22 - m.m12 * m.m20)
  + m.m02 * (m.m10 * m.m21 - m.m11 * m.m20)

/-- Eigen's fixed-size 3x3 `inverse()`: adjugate divided by the determinant.
On a singular input the rational division by zero makes every entry 0
(the C++ doubles would be non-finite there; either way the result is not an
inverse). -/
def Mat3.inverse (m : Mat3) : Mat3 :=
  let d := m.det
  ⟨ (m.m11 * m.m22 - m.m12 * m.m21) / d,
    (m.m02 * m.m21 - m.m01 * m.m22) / d,
    (m.m01 * m.m12 - m.m02 * m.m11) / d,
    (m.m12 * m.m20 - m.m10 * m.m22) / d,
    (m.m00 * m.m22 - m.m02 * m.m20) / d,
    (m.m02 * m.m10 - m.m00 * m.m12) / d,
    (m.m10 * m.m21 - m.m11 * m.m20) / d,
    (m.m01 * m.m20 - m.m00 * m.m21) / d,
    (m.m00 * m.m11 - m.m01 * m.m10) / d ⟩

/-- The `Pinhole_Intrinsic` state: the width/height fields `_w`/`_h`
inherited from `IntrinsicBase`, the calibration matrix `_K` and its cached
inverse `_Kinv`. -/
structure Pinhole_Intrinsic where
  w : ℕ
  h : ℕ
  K : Mat3
  Kinv : Mat3
deriving DecidableEq, Repr

namespace Pinhole_Intrinsic

/-- The constructor `Pinhole_Intrinsic(w, h, focal_length_pix, ppx, ppy)`:
`_K << f, 0, ppx, 0, f, ppy, 0, 0, 1;  _Kinv = _K.inverse();`. -/
def mk' (w h : ℕ) (focal_length_pix ppx ppy : ℚ) : Pinhole_Intrinsic :=
  let K : Mat3 := ⟨focal_length_pix, 0, ppx, 0, focal_length_pix, ppy, 0, 0, 1⟩
  ⟨w, h, K, K.inverse⟩

/-- The accessor `focal()`: returns `_K(0, 0)`. -/
def focal (c : Pinhole_Intrinsic) : ℚ := c.K.m00

/-- The accessor `principal_point()`: returns `Vec2(_K(0, 2), _K(1, 2))`. -/
def principal_point (c : Pinhole_Intrinsic) : Vec2 := ⟨c.K.m02, c.K.m12⟩

/-- The unnormalized part of `operator()(p)`: `_Kinv * Vec3(p(0), p(1), 1.0)`. -/
def bearingUnnormalized (c : Pinhole_Intrinsic) (p : Vec2) : Vec3 :=
  c.Kinv.mulVec ⟨p.x, p.y, 1⟩

/-- The method `cam2ima(p)`: `focal() * p + principal_point()`. -/
def cam2ima (c : Pinhole_Intrinsic) (p : Vec2) : Vec2 :=
  ⟨c.focal * p.x + c.principal_point.x, c.focal * p.y + c.principal_point.y⟩

/-- The method `ima2cam(p)`: `(p - principal_point()) / focal()`. -/
def ima2cam (c : Pinhole_Intrinsic) (p : Vec2) : Vec2 :=
  ⟨(p.x - c.principal_point.x) / c.focal, (p.y - c.principal_point.y) / c.focal⟩

/-- The method `have_disto()`: returns `false`. -/
def have_disto (_c : Pinhole_Intrinsic) : Bool := false

/-- The method `add_disto(p)`: returns `p`. -/
def add_disto (_c : Pinhole_Intrinsic) (p : Vec2) : Vec2 := p

/-- The method `remove_disto(p)`: returns `p`. -/
def remove_disto (_c : Pinhole_Intrinsic) (p : Vec2) : Vec2 := p

/-- The method `imagePlane_toCameraPlaneError(value)`: `value / focal()`. -/
def imagePlane_toCameraPlaneError (c : Pinhole_Intrinsic) (value : ℚ) : ℚ :=
  value / c.focal

/-- The method `getParams()`: `{_K(0, 0), _K(0, 2), _K(1, 2)}`. -/
def getParams (c : Pinhole_Intrinsic) : List ℚ :=
  [c.K.m00, c.K.m02, c.K.m12]

/-- The method `updateFromParams(params)`: if `params.size() == 3`, replace the whole
object by `Pinhole_Intrinsic(_w, _h, params[0], params[1], params[2])` and
return `true`; otherwise return `false` and leave the object unchanged.
The returned pair is (return value, state after the call). -/
def updateFromParams (c : Pinhole_Intrinsic) (params : List ℚ) :
    Bool × Pinhole_Intrinsic :=
  if h : params.length = 3 then
    (true, mk' c.w c.h (params.get ⟨0, by omega⟩) (params.get ⟨1, by omega⟩)
      (params.get ⟨2, by omega⟩))
  else
    (false, c)

/-- The method `get_ud_pixel(p)`: returns `p`. -/
def get_ud_pixel (_c : Pinhole_Intrinsic) (p : Vec2) : Vec2 := p

/-- The method `get_d_pixel(p)`: returns `p`. -/
def get_d_pixel (_c : Pinhole_Intrinsic) (p : Vec2) : Vec2 := p

end Pinhole_Intrinsic

/-- The serialized shape of a pinhole camera: the fields written by
`IntrinsicBase::save` (modelled from the spec: width and height, the base
class is not part of the examined source) followed by the fields written by
`Pinhole_Intrinsic::save`: `focal_length` and the 2-element
`principal_point` vector. -/
structure Archive where
  width : ℕ
  height : ℕ
  focal_length : ℚ
  principal_point : List ℚ
deriving DecidableEq, Repr

namespace Pinhole_Intrinsic

/-- The method `save(ar)`: `IntrinsicBase::save(ar)` (modelled from the spec: writes
width and height), then `ar(focal_length = _K(0,0))` and
`ar(principal_point = {_K(0,2), _K(1,2)})`. -/
def save (c : Pinhole_Intrinsic) : Archive :=
  ⟨c.w, c.h, c.K.m00, [c.K.m02, c.K.m12]⟩

/-- The method `load(ar)`: `IntrinsicBase::load(ar)` (modelled from the spec: reads
width and height into `_w`/`_h`), then reads `focal_length` and the
2-element `principal_point` vector and replaces the whole object by
`Pinhole_Intrinsic(_w, _h, focal_length, pp[0], pp[1])`. -/
def load (_c : Pinhole_Intrinsic) (ar : Archive) : Pinhole_Intrinsic :=
  mk' ar.width ar.height ar.focal_length
    (ar.principal_point.getD 0 0) (ar.principal_point.getD 1 0)

end Pinhole_Intrinsic

/-- A real-valued 3-vector, for the normalization step. -/
structure Vec3R where
  x : ℝ
  y : ℝ
  z : ℝ

/-- Embed an (exact-rational) `Vec3` into real coordinates. -/
def Vec3.toR (v : Vec3) : Vec3R := ⟨(v.x : ℝ), (v.y : ℝ), (v.z : ℝ)⟩

/-- Euclidean norm of a real 3-vector. -/
noncomputable def Vec3R.norm (v : Vec3R) : ℝ :=
  Real.sqrt (v.x ^ 2 + v.y ^ 2 + v.z ^ 2)

/-- Eigen's `normalized()`: divide every coordinate by the Euclidean norm. -/
noncomputable def Vec3R.normalized (v : Vec3R) : Vec3R :=
  ⟨v.x / v.norm, v.y / v.norm, v.z / v.norm⟩

/-- The bearing operator `operator()(p)`: `(_Kinv * Vec3(p(0), p(1), 1.0)).normalized()`. -/
noncomputable def Pinhole_Intrinsic.bearing
    (c : Pinhole_Intrinsic) (p : Vec2) : Vec3R :=
  (c.bearingUnnormalized p).toR.normalized

/-- The invariant that `K * Kinv = I` and `Kinv * K = I`: the cached inverse really is the
inverse of the stored calibration matrix. -/
def Pinhole_Intrinsic.consistentInverse (c : Pinhole_Intrinsic) : Prop :=
  c.K.mul c.Kinv = Mat3.id3 ∧ c.Kinv.mul c.K = Mat3.id3

/-- With a nonzero focal length, the cached inverse computed by the
constructor has the closed form `[[1/f, 0, -ppx/f], [0, 1/f, -ppy/f], [0, 0, 1]]`. -/
lemma Pinhole_Intrinsic.Kinv_mk (w h : ℕ) (f ppx ppy : ℚ) (hf : f ≠ 0) :
    (Pinhole_Intrinsic.mk' w h f ppx ppy).Kinv =
      ⟨1 / f, 0, -(ppx / f), 0, 1 / f, -(ppy / f), 0, 0, 1⟩ := by
  simp only [Pinhole_Intrinsic.mk', Mat3.inverse, Mat3.det, Mat3.mk.injEq]
  refine ⟨?_, ?_, ?_, ?_, ?_, ?_, ?_, ?_, ?_⟩ <;> field_simp <;> ring

/-- With a nonzero focal length, the constructed camera's `K` and cached
`Kinv` multiply to the identity on both sides. -/
lemma Pinhole_Intrinsic.consistentInverse_mk (w h : ℕ) (f ppx ppy : ℚ)
    (hf : f ≠ 0) : (Pinhole_Intrinsic.mk' w h f ppx ppy).consistentInverse := by
  refine ⟨?_, ?_⟩ <;>
  · rw [Pinhole_Intrinsic.Kinv_mk w h f ppx ppy hf]
    simp only [Pinhole_Intrinsic.mk', Mat3.mul, Mat3.id3, Mat3.mk.injEq]
    refine ⟨?_, ?_, ?_, ?_, ?_, ?_, ?_, ?_, ?_⟩ <;> field_simp <;> ring

/-- With a nonzero focal length, the third component of the unnormalized
bearing vector `Kinv * (px, py, 1)` is exactly 1 (the third row of `Kinv`
is `(0, 0, 1)`). -/
lemma Pinhole_Intrinsic.bearingUnnormalized_z (w h : ℕ) (f ppx ppy : ℚ)
    (hf : f ≠ 0) (p : Vec2) :
    ((Pinhole_Intrinsic.mk' w h f ppx ppy).bearingUnnormalized p).z = 1 := by
  simp [Pinhole_Intrinsic.bearingUnnormalized,
    Pinhole_Intrinsic.Kinv_mk w h f ppx ppy hf, Mat3.mulVec]

/-- Normalizing a real 3-vector with positive squared length yields a
vector of Euclidean norm 1. -/
lemma Vec3R.norm_normalized (v : Vec3R)
    (hv : 0 < v.x ^ 2 + v.y ^ 2 + v.z ^ 2) : v.normalized.norm = 1 := by
  have hnpos : 0 < v.norm := Real.sqrt_pos.mpr hv
  have hsq : v.norm ^ 2 = v.x ^ 2 + v.y ^ 2 + v.z ^ 2 := Real.sq_sqrt hv.le
  have hsum : (v.x / v.norm) ^ 2 + (v.y / v.norm) ^ 2 + (v.z / v.norm) ^ 2
      = 1 := by
    field_simp
    exact hsq.symm
  show Real.sqrt ((v.x / v.norm) ^ 2 + (v.y / v.norm) ^ 2
    + (v.z / v.norm) ^ 2) = 1
  rw [hsum, Real.sqrt_one]

/-- C1: `updateFromParams(v)` with a 3-element vector returns true and
replaces the state by the full reconstruction
`Pinhole_Intrinsic(_w, _h, v[0], v[1], v[2])`; with any vector whose length
is not 3 it returns false and leaves the state (in particular `K`, `Kinv`,
width and height) unchanged. -/
theorem C1_updateFromParams (c : Pinhole_Intrinsic) (v : List ℚ) :
    (∀ a b d : ℚ, v = [a, b, d] →
      c.updateFromParams v = (true, Pinhole_Intrinsic.mk' c.w c.h a b d)) ∧
    (v.length ≠ 3 → c.updateFromParams v = (false, c)) := by
  constructor
  · rintro a b d rfl
    rfl
  · intro hv
    simp [Pinhole_Intrinsic.updateFromParams, hv]

/-- Witness for C1 at a concrete camera, a length-3 vector and a
length-2 vector. -/
theorem C1_updateFromParams_witness :
    (Pinhole_Intrinsic.mk' 4 3 2 1 1).updateFromParams [7, 8, 9]
      = (true, Pinhole_Intrinsic.mk' 4 3 7 8 9) ∧
    (Pinhole_Intrinsic.mk' 4 3 2 1 1).updateFromParams [7, 8]
      = (false, Pinhole_Intrinsic.mk' 4 3 2 1 1) :=
  ⟨(C1_updateFromParams (Pinhole_Intrinsic.mk' 4 3 2 1 1) [7, 8, 9]).1
      7 8 9 rfl,
   (C1_updateFromParams (Pinhole_Intrinsic.mk' 4 3 2 1 1) [7, 8]).2
      (by decide)⟩

/-- C2 as stated is false: a state reachable through `updateFromParams`
with a zero focal parameter (which the code accepts, validating only the
length) has a singular `K`, and `K * Kinv` is not the identity there. -/
theorem C2_counterexample :
    ¬ (((Pinhole_Intrinsic.mk' 1 1 1 0 0).updateFromParams [0, 0, 0]).2.K.mul
        ((Pinhole_Intrinsic.mk' 1 1 1 0 0).updateFromParams [0, 0, 0]).2.Kinv
      = Mat3.id3) := by
  have h : ((Pinhole_Intrinsic.mk' 1 1 1 0 0).updateFromParams [0, 0, 0]).2
      = Pinhole_Intrinsic.mk' 1 1 0 0 0 := rfl
  rw [h]
  norm_num [Pinhole_Intrinsic.mk', Mat3.inverse, Mat3.det, Mat3.mul,
    Mat3.id3, Mat3.mk.injEq]

/-- C2 (amended): in every pinhole intrinsic reachable through
construction, `updateFromParams` or `load` with a nonzero focal value, the
stored `Kinv` is the exact inverse of the stored `K`: `K * Kinv` and
`Kinv * K` are the identity. -/
theorem C2_K_Kinv_consistent (w h : ℕ) (f ppx ppy : ℚ) (hf : f ≠ 0)
    (c : Pinhole_Intrinsic) (ar : Archive) :
    (Pinhole_Intrinsic.mk' w h f ppx ppy).consistentInverse ∧
    ((c.updateFromParams [f, ppx, ppy]).2).consistentInverse ∧
    (ar.focal_length ≠ 0 → (c.load ar).consistentInverse) := by
  refine ⟨Pinhole_Intrinsic.consistentInverse_mk w h f ppx ppy hf, ?_, ?_⟩
  · exact Pinhole_Intrinsic.consistentInverse_mk c.w c.h f ppx ppy hf
  · intro har
    exact Pinhole_Intrinsic.consistentInverse_mk ar.width ar.height
      ar.focal_length (ar.principal_point.getD 0 0)
      (ar.principal_point.getD 1 0) har

/-- Witness for the amended C2 at a concrete construction. -/
theorem C2_K_Kinv_consistent_witness :
    (Pinhole_Intrinsic.mk' 1920 1080 1000 960 540).consistentInverse :=
  (C2_K_Kinv_consistent 1920 1080 1000 960 540 (by decide)
    (Pinhole_Intrinsic.mk' 0 0 0 0 0) ⟨0, 0, 1, []⟩).1

/-- C3: with a nonzero focal length, `cam2ima` and `ima2cam` are exact
mutual inverses on every 2D point. -/
theorem C3_cam2ima_ima2cam_inverse (w h : ℕ) (f ppx ppy : ℚ) (hf : f ≠ 0)
    (p : Vec2) :
    (Pinhole_Intrinsic.mk' w h f ppx ppy).cam2ima
      ((Pinhole_Intrinsic.mk' w h f ppx ppy).ima2cam p) = p ∧
    (Pinhole_Intrinsic.mk' w h f ppx ppy).ima2cam
      ((Pinhole_Intrinsic.mk' w h f ppx ppy).cam2ima p) = p := by
  obtain ⟨px, py⟩ := p
  constructor <;>
  · simp only [Pinhole_Intrinsic.cam2ima, Pinhole_Intrinsic.ima2cam,
      Pinhole_Intrinsic.focal, Pinhole_Intrinsic.principal_point,
      Pinhole_Intrinsic.mk', Vec2.mk.injEq]
    constructor <;> (field_simp; try ring)

/-- Witness for C3 at a concrete camera and point. -/
theorem C3_cam2ima_ima2cam_inverse_witness :
    (Pinhole_Intrinsic.mk' 1 1 2 3 4).cam2ima
      ((Pinhole_Intrinsic.mk' 1 1 2 3 4).ima2cam ⟨5, 6⟩) = ⟨5, 6⟩ ∧
    (Pinhole_Intrinsic.mk' 1 1 2 3 4).ima2cam
      ((Pinhole_Intrinsic.mk' 1 1 2 3 4).cam2ima ⟨5, 6⟩) = ⟨5, 6⟩ :=
  C3_cam2ima_ima2cam_inverse 1 1 2 3 4 (by decide) ⟨5, 6⟩

/-- C4: `getParams()` returns exactly the 3 values
`[focal, principal-point-x, principal-point-y]`, in that order. -/
theorem C4_getParams_order (c : Pinhole_Intrinsic) :
    c.getParams = [c.focal, c.principal_point.x, c.principal_point.y] ∧
    c.getParams.length = 3 :=
  ⟨rfl, rfl⟩

/-- C5: `updateFromParams(getParams())` succeeds and reproduces the
identical state (same `K`, `Kinv`, width and height) on every constructed
pinhole intrinsic. -/
theorem C5_getParams_updateFromParams_roundtrip (w h : ℕ) (f ppx ppy : ℚ) :
    (Pinhole_Intrinsic.mk' w h f ppx ppy).updateFromParams
      ((Pinhole_Intrinsic.mk' w h f ppx ppy).getParams)
      = (true, Pinhole_Intrinsic.mk' w h f ppx ppy) :=
  rfl

/-- C6: `save` followed by `load` reproduces the identical state for every
constructed pinhole intrinsic, whatever the state of the object the archive
is loaded into; in particular for `(1920, 1080, 1000, 960, 540)` the
reloaded object has focal 1000, principal point `(960, 540)`, width 1920
and height 1080. -/
theorem C6_save_load_roundtrip :
    (∀ (w h : ℕ) (f ppx ppy : ℚ) (c : Pinhole_Intrinsic),
      c.load ((Pinhole_Intrinsic.mk' w h f ppx ppy).save)
        = Pinhole_Intrinsic.mk' w h f ppx ppy) ∧
    ((Pinhole_Intrinsic.mk' 0 0 0 0 0).load
        ((Pinhole_Intrinsic.mk' 1920 1080 1000 960 540).save)).focal = 1000 ∧
    ((Pinhole_Intrinsic.mk' 0 0 0 0 0).load
        ((Pinhole_Intrinsic.mk' 1920 1080 1000 960 540).save)).principal_point
      = ⟨960, 540⟩ ∧
    ((Pinhole_Intrinsic.mk' 0 0 0 0 0).load
        ((Pinhole_Intrinsic.mk' 1920 1080 1000 960 540).save)).w = 1920 ∧
    ((Pinhole_Intrinsic.mk' 0 0 0 0 0).load
        ((Pinhole_Intrinsic.mk' 1920 1080 1000 960 540).save)).h = 1080 :=
  ⟨fun _ _ _ _ _ _ => rfl, rfl, rfl, rfl, rfl⟩

/-- C7: with a nonzero focal length, the bearing operator is the unit
normalization of `Kinv * (px, py, 1)`, and its result has Euclidean norm
exactly 1. -/
theorem C7_bearing_unit_length (w h : ℕ) (f ppx ppy : ℚ) (hf : f ≠ 0)
    (p : Vec2) :
    (Pinhole_Intrinsic.mk' w h f ppx ppy).bearing p
      = ((Pinhole_Intrinsic.mk' w h f ppx ppy).bearingUnnormalized p).toR.normalized ∧
    ((Pinhole_Intrinsic.mk' w h f ppx ppy).bearing p).norm = 1 := by
  refine ⟨rfl, ?_⟩
  apply Vec3R.norm_normalized
  have hz := Pinhole_Intrinsic.bearingUnnormalized_z w h f ppx ppy hf p
  set v := (Pinhole_Intrinsic.mk' w h f ppx ppy).bearingUnnormalized p with hv
  have hzr : (v.toR).z = 1 := by
    simp [Vec3.toR, hz]
  calc (0 : ℝ) < (v.toR).x ^ 2 + (v.toR).y ^ 2 + 1 := by positivity
  _ = (v.toR).x ^ 2 + (v.toR).y ^ 2 + (v.toR).z ^ 2 := by rw [hzr]; ring

/-- Witness for C7 at a concrete camera and pixel. -/
theorem C7_bearing_unit_length_witness :
    ((Pinhole_Intrinsic.mk' 1920 1080 1000 960 540).bearing ⟨100, 200⟩).norm
      = 1 :=
  (C7_bearing_unit_length 1920 1080 1000 960 540 (by decide) ⟨100, 200⟩).2

/-- C8: the pinhole model has no distortion: `have_disto` is false and all
four distortion hooks are the identity on every point. -/
theorem C8_distortion_identity (c : Pinhole_Intrinsic) (p : Vec2) :
    c.have_disto = false ∧ c.add_disto p = p ∧ c.remove_disto p = p ∧
    c.get_d_pixel p = p ∧ c.get_ud_pixel p = p :=
  ⟨rfl, rfl, rfl, rfl, rfl⟩

/-- C9: `updateFromParams` validates only the length: on every 3-element
vector, including a zero or negative first (focal) value, it returns true
and installs the reconstructed calibration, whose focal is that value. -/
theorem C9_no_value_validation (c : Pinhole_Intrinsic) (a b d : ℚ) :
    (c.updateFromParams [a, b, d]).1 = true ∧
    (c.updateFromParams [a, b, d]).2 = Pinhole_Intrinsic.mk' c.w c.h a b d ∧
    (c.updateFromParams [a, b, d]).2.focal = a :=
  ⟨rfl, rfl, rfl⟩

/-- C10: with a nonzero focal length, the unnormalized bearing vector
`Kinv * (px, py, 1)` has third component exactly 1, and the normalized
bearing returned by the operator has a strictly positive third component. -/
theorem C10_bearing_forward_z (w h : ℕ) (f ppx ppy : ℚ) (hf : f ≠ 0)
    (p : Vec2) :
    ((Pinhole_Intrinsic.mk' w h f ppx ppy).bearingUnnormalized p).z = 1 ∧
    0 < ((Pinhole_Intrinsic.mk' w h f ppx ppy).bearing p).z := by
  have hz := Pinhole_Intrinsic.bearingUnnormalized_z w h f ppx ppy hf p
  refine ⟨hz, ?_⟩
  set v := (Pinhole_Intrinsic.mk' w h f ppx ppy).bearingUnnormalized p with hv
  have hzr : (v.toR).z = 1 := by
    simp [Vec3.toR, hz]
  have hpos : (0 : ℝ) < (v.toR).x ^ 2 + (v.toR).y ^ 2 + (v.toR).z ^ 2 := by
    calc (0 : ℝ) < (v.toR).x ^ 2 + (v.toR).y ^ 2 + 1 := by positivity
    _ = (v.toR).x ^ 2 + (v.toR).y ^ 2 + (v.toR).z ^ 2 := by rw [hzr]; ring
  have hn : 0 < (v.toR).norm := Real.sqrt_pos.mpr hpos
  show 0 < (v.toR).z / (v.toR).norm
  rw [hzr]
  positivity

/-- Witness for C10 at a concrete camera and pixel. -/
theorem C10_bearing_forward_z_witness :
    ((Pinhole_Intrinsic.mk' 1920 1080 1000 960 540).bearingUnnormalized
      ⟨100, 200⟩).z = 1 ∧
    0 < ((Pinhole_Intrinsic.mk' 1920 1080 1000 960 540).bearing
      ⟨100, 200⟩).z :=
  C10_bearing_forward_z 1920 1080 1000 960 540 (by decide) ⟨100, 200⟩

end OpenMVG
